import Mathlib

/-!
Verification of the sharded concurrent map library (`cmap`).

The Go code is shallowly embedded: each shard's backend map is modelled as an
association list with unique keys, the container is a record holding the shard
list, the routing mask, the dirty flag, the hash function and the configured
serializer.  Machine integers (`uint32`, `uint64`) are modelled as `Nat` with
explicit `% 2^32` / `% 2^64` reductions at the points where Go truncates.
Codecs (JSON, gob, ...) are external collaborators: only their shape (name,
marshal, unmarshal, isJSON capability) is modelled, their byte-level encodings
are opaque.  OS file primitives are modelled by an explicit file-system state
plus a trace of I/O events; they are assumed to succeed (their failure modes
are outside the claims under verification).
-/

set_option maxHeartbeats 1000000
set_option linter.unusedSectionVars false

section Defs

variable {K V : Type} [DecidableEq K]

/-- Lookup in an association list: the first entry with the given key wins
(model of the backend map's `Get`). -/
def listGet : List (K × V) → K → Option V
  | [], _ => none
  | (a, b) :: t, k => if a = k then some b else listGet t k

/-- Insert/overwrite in an association list: the first entry with the given
key is replaced, otherwise the pair is appended (model of the backend map's
`Put`, last-write-wins). -/
def listPut : List (K × V) → K → V → List (K × V)
  | [], k, v => [(k, v)]
  | (a, b) :: t, k, v => if a = k then (k, v) :: t else (a, b) :: listPut t k v

/-- Delete from an association list: the first entry with the given key is
removed (model of the backend map's `Remove`). -/
def listRemove : List (K × V) → K → List (K × V)
  | [], _ => []
  | (a, b) :: t, k => if a = k then t else (a, b) :: listRemove t k

/-- Serialization key/value pair, mirroring `Tuple` in the source. -/
structure Tuple (K V : Type) where
  key : K
  value : V
deriving DecidableEq

/-- Wrapper holding the flat entry list, mirroring `SerializableData`. -/
structure SerializableData (K V : Type) where
  items : List (Tuple K V)
deriving DecidableEq

/-- Codec record mirroring `SerializerFunc`: a name, a marshal/unmarshal pair
over the flat entry representation (bytes are modelled as `List Nat`), and the
`isJSON` capability flag.  The byte-level behaviour of the real codecs is an
external collaborator and stays abstract. -/
structure SerializerFunc (K V : Type) where
  name : String
  marshal : SerializableData K V → Except String (List Nat)
  unmarshal : List Nat → Except String (SerializableData K V)
  isJSON : Bool

/-- Construction options, mirroring `Options` (`ShardCount` is a `uint32`;
`Serializer` is a nilable pointer, modelled as `Option`). -/
structure Options (K V : Type) where
  ShardCount : Nat
  Serializer : Option (SerializerFunc K V)

/-- The sharded map, mirroring `Map[K, V]`.  Each shard's backend map is an
association list; locks only serialize access in Go and have no effect on the
sequential semantics, so they are not represented. -/
structure Map (K V : Type) where
  shards : List (List (K × V))
  mask : Nat
  dirty : Bool
  hasher : K → Nat
  serializer : Option (SerializerFunc K V)

/-- Shard index for a key, mirroring `getShard`: `hash(key) & mask`. -/
def Map.getShardIdx (m : Map K V) (k : K) : Nat :=
  m.hasher k &&& m.mask

/-- Contents of the shard a key routes to (the Go code indexes
`m.shards[hash&m.mask]`; out-of-range access is modelled by the empty
default of `getD` and separately shown in-bounds for constructed maps). -/
def Map.getShard (m : Map K V) (k : K) : List (K × V) :=
  m.shards.getD (m.getShardIdx k) []

/-- `Put` inserts a pair into the routed shard and sets the dirty flag. -/
def Map.Put (m : Map K V) (k : K) (v : V) : Map K V :=
  { m with
    shards := m.shards.set (m.getShardIdx k) (listPut (m.getShard k) k v)
    dirty := true }

/-- `Get` looks the key up in the routed shard; `none` models `found=false`. -/
def Map.Get (m : Map K V) (k : K) : Option V :=
  listGet (m.getShard k) k

/-- `Remove` checks existence first and deletes the key if present; the dirty
flag is set only when a removal actually occurred. -/
def Map.Remove (m : Map K V) (k : K) : Map K V :=
  if (listGet (m.getShard k) k).isSome then
    { m with
      shards := m.shards.set (m.getShardIdx k) (listRemove (m.getShard k) k)
      dirty := true }
  else m

/-- `Empty` is true when every shard is empty. -/
def Map.Empty (m : Map K V) : Bool :=
  m.shards.all List.isEmpty

/-- `Size` sums the shard sizes. -/
def Map.Size (m : Map K V) : Nat :=
  (m.shards.map List.length).sum

/-- `Clear` empties every shard and sets the dirty flag. -/
def Map.Clear (m : Map K V) : Map K V :=
  { m with shards := m.shards.map (fun _ => []), dirty := true }

/-- `Keys` concatenates the per-shard key enumerations. -/
def Map.Keys (m : Map K V) : List K :=
  (m.shards.map (fun sh => sh.map Prod.fst)).flatten

/-- `IsDirty` reads the dirty flag. -/
def Map.IsDirty (m : Map K V) : Bool :=
  m.dirty

/-- Bit-smearing round-up to the next power of two, mirroring
`roundUpToPowerOf2` on `uint32` (note the final `+ 1` wraps to `0` for
inputs above `2^31`, exactly as in Go). -/
def roundUpToPowerOf2 (n : Nat) : Nat :=
  if n = 0 then 1
  else
    let x0 := (n - 1) % 2 ^ 32
    let x1 := x0 ||| (x0 >>> 1)
    let x2 := x1 ||| (x1 >>> 2)
    let x3 := x2 ||| (x2 >>> 4)
    let x4 := x3 ||| (x3 >>> 8)
    let x5 := x4 ||| (x4 >>> 16)
    (x5 + 1) % 2 ^ 32

/-- Container construction, mirroring `createMap`: the shard count is rounded
up to a power of two, shards start empty, and `mask := shardCount - 1` on
`uint32` (which wraps to `2^32 - 1` when the rounded count overflowed to 0).
The per-type hash function of `getHasher` is passed as a parameter. -/
def createMap (hasher : K → Nat) (opts : Options K V) : Map K V :=
  let shardCount := roundUpToPowerOf2 (opts.ShardCount % 2 ^ 32)
  { shards := List.replicate shardCount []
    mask := (shardCount + (2 ^ 32 - 1)) % 2 ^ 32
    dirty := false
    hasher := hasher
    serializer := opts.Serializer }

/-- Standard JSON codec, mirroring `JsonSerializer()`.  The real byte encoding
(`encoding/json`) is an external collaborator, so the marshal/unmarshal pair
is left abstract; only the name and the capability flag matter to the claims. -/
def JsonSerializer (K V : Type) : SerializerFunc K V :=
  { name := "json"
    marshal := fun _ => Except.error "external codec"
    unmarshal := fun _ => Except.error "external codec"
    isJSON := true }

/-- Gob codec, mirroring `GobSerializer()`: same abstract treatment as
`JsonSerializer`, with `isJSON := false`. -/
def GobSerializer (K V : Type) : SerializerFunc K V :=
  { name := "gob"
    marshal := fun _ => Except.error "external codec"
    unmarshal := fun _ => Except.error "external codec"
    isJSON := false }

/-- Codec selection for `MarshalJSON`/`UnmarshalJSON`, mirroring
`getJSONSerializer`.  In Go the branch is
`if _, ok := any(serializer).(JSONCompatible); ok { return serializer }`; the
concrete type `*SerializerFunc` always has the `IsJSON` method, so the type
assertion succeeds for every non-nil configured serializer and the fallback
line is reached only when no serializer is configured. -/
def Map.getJSONSerializer (m : Map K V) : SerializerFunc K V :=
  match m.serializer with
  | none => JsonSerializer K V
  | some s => s

/-- Flat entry list of the container in shard-then-iteration order, as built
by the loop in `MarshalWith`. -/
def Map.itemsList (m : Map K V) : List (Tuple K V) :=
  m.shards.flatten.map (fun p => ⟨p.1, p.2⟩)

/-- `MarshalWith` snapshots all shards into the flat entry list and hands it
to the codec. -/
def Map.MarshalWith (m : Map K V) (s : SerializerFunc K V) : Except String (List Nat) :=
  s.marshal ⟨m.itemsList⟩

/-- `UnmarshalWith` decodes first and returns the decode error with the map
untouched; on success it performs `Clear`, re-`Put`s every entry, and resets
the dirty flag.  The pair result models (mutated receiver, returned error). -/
def Map.UnmarshalWith (m : Map K V) (data : List Nat) (s : SerializerFunc K V) :
    Map K V × Option String :=
  match s.unmarshal data with
  | Except.error e => (m, some e)
  | Except.ok d =>
    let m1 := d.items.foldl (fun acc t => acc.Put t.key t.value) m.Clear
    ({ m1 with dirty := false }, none)

/-- `MarshalJSON` marshals with the codec picked by `getJSONSerializer`. -/
def Map.MarshalJSON (m : Map K V) : Except String (List Nat) :=
  m.MarshalWith m.getJSONSerializer

/-- `UnmarshalJSON` unmarshals with the codec picked by `getJSONSerializer`. -/
def Map.UnmarshalJSON (m : Map K V) (data : List Nat) : Map K V × Option String :=
  m.UnmarshalWith data m.getJSONSerializer

/-- Trace of OS-level operations performed by the persistence layer. -/
inductive IOEvent where
  | mkdirAll (dir : String)
  | statFile (path : String)
  | readFile (path : String)
  | writeFile (path : String) (data : List Nat)
  | rename (src dst : String)
deriving DecidableEq

/-- True for the events that create or modify files on disk. -/
def IOEvent.isWrite : IOEvent → Bool
  | .writeFile _ _ => true
  | .rename _ _ => true
  | _ => false

/-- File-system state: a partial map from path to file contents. -/
structure FS where
  files : String → Option (List Nat)

/-- Write (create or overwrite) a file. -/
def FS.write (fs : FS) (path : String) (data : List Nat) : FS :=
  ⟨fun p => if p = path then some data else fs.files p⟩

/-- Remove a file. -/
def FS.removeFile (fs : FS) (path : String) : FS :=
  ⟨fun p => if p = path then none else fs.files p⟩

/-- Model of Go's `filepath.IsAbs` on Unix: absolute paths start with `/`. -/
def filepathIsAbs (p : String) : Bool :=
  match p.toList with
  | [] => false
  | c :: _ => c = '/'

/-- Split a character list on a separator character (structural model of the
path splitting done by `filepath.Dir`). -/
def splitOnChar (c : Char) : List Char → List (List Char)
  | [] => [[]]
  | a :: t =>
    if a = c then [] :: splitOnChar c t
    else
      match splitOnChar c t with
      | [] => [[a]]
      | h :: r => (a :: h) :: r

/-- Model of Go's `filepath.Dir` on clean Unix paths without trailing
slashes: everything before the last separator, or `.` when there is none. -/
def filepathDir (p : String) : String :=
  let parts := splitOnChar '/' p.toList
  if parts.length ≤ 1 then "."
  else String.mk (List.intercalate ['/'] parts.dropLast)

/-- Result of a `SaveToFile` call: receiver, file system, I/O trace, error. -/
structure SaveResult (K V : Type) where
  map : Map K V
  fs : FS
  events : List IOEvent
  err : Option String

/-- Result of a `LoadFromFile` call (loading never changes the file system). -/
structure LoadResult (K V : Type) where
  map : Map K V
  events : List IOEvent
  err : Option String

/-- `SaveToFile`, with OS primitives (MkdirAll, WriteFile, Rename) modelled as
always succeeding and recorded in the event trace.  Control flow mirrors the
source: empty-path check; MkdirAll of the parent for relative paths; missing
serializer check; skip when non-empty and clean; marshal; write temp file;
rename; clear the dirty flag. -/
def Map.SaveToFile (m : Map K V) (fs : FS) (filename : String) : SaveResult K V :=
  if filename = "" then ⟨m, fs, [], some "filename cannot be empty"⟩
  else
    let dir := filepathDir filename
    let ev0 : List IOEvent :=
      if ¬ filepathIsAbs filename ∧ dir ≠ "." ∧ dir ≠ "" then [.mkdirAll dir] else []
    match m.serializer with
    | none => ⟨m, fs, ev0, some "no serializer configured for marshaling"⟩
    | some s =>
      if 0 < m.Size ∧ m.dirty = false then ⟨m, fs, ev0, none⟩
      else
        match m.MarshalWith s with
        | Except.error e => ⟨m, fs, ev0, some ("failed to marshal data: " ++ e)⟩
        | Except.ok data =>
          let tempFile := filename ++ ".tmp"
          let fs1 := (fs.write tempFile data).write filename data |>.removeFile tempFile
          ⟨{ m with dirty := false }, fs1,
            ev0 ++ [.writeFile tempFile data, .rename tempFile filename], none⟩

/-- `LoadFromFile`, mirroring the source: empty-path check; missing serializer
check; stat; read; empty file clears the map; otherwise `UnmarshalWith`
followed by resetting the dirty flag. -/
def Map.LoadFromFile (m : Map K V) (fs : FS) (filename : String) : LoadResult K V :=
  if filename = "" then ⟨m, [], some "filename cannot be empty"⟩
  else
    match m.serializer with
    | none => ⟨m, [], some "no serializer configured for unmarshaling"⟩
    | some s =>
      match fs.files filename with
      | none => ⟨m, [.statFile filename], some ("file " ++ filename ++ " does not exist")⟩
      | some data =>
        if data.length = 0 then
          ⟨{ m.Clear with dirty := false }, [.statFile filename, .readFile filename], none⟩
        else
          let r := m.UnmarshalWith data s
          match r.2 with
          | some e =>
            ⟨r.1, [.statFile filename, .readFile filename],
              some ("failed to unmarshal data from " ++ filename ++ ": " ++ e)⟩
          | none =>
            ⟨{ r.1 with dirty := false }, [.statFile filename, .readFile filename], none⟩

/-- Integer mixer for 32-bit keys, mirroring `uint32Hash` (multiply-xor-shift
on `uint32`, with explicit truncation after each multiplication). -/
def uint32Hash (key : Nat) : Nat :=
  let x0 := key % 2 ^ 32
  let x1 := ((x0 >>> 16) ^^^ x0) * 0x45d9f3b % 2 ^ 32
  let x2 := ((x1 >>> 16) ^^^ x1) * 0x45d9f3b % 2 ^ 32
  (x2 >>> 16) ^^^ x2

/-- Integer mixer for 64-bit keys, mirroring `uint64Hash` (SplitMix-style
finalizer on `uint64`, truncated to `uint32` at the end). -/
def uint64Hash (key : Nat) : Nat :=
  let x0 := key % 2 ^ 64
  let x1 := (x0 ^^^ (x0 >>> 30)) * 0xbf58476d1ce4e5b9 % 2 ^ 64
  let x2 := (x1 ^^^ (x1 >>> 27)) * 0x94d049bb133111eb % 2 ^ 64
  let x3 := x2 ^^^ (x2 >>> 31)
  x3 % 2 ^ 32

/-- NaN test on an IEEE-754 single bit pattern: exponent all ones and nonzero
mantissa (this is what Go's `math.IsNaN` computes). -/
def f32IsNaN (b : Nat) : Bool :=
  (b >>> 23) % 256 = 255 ∧ b % 2 ^ 23 ≠ 0

/-- Zero test on an IEEE-754 single bit pattern: all bits except the sign are
zero, so it holds exactly for `0.0` and `-0.0` (Go's `key == 0`). -/
def f32IsZero (b : Nat) : Bool :=
  b % 2 ^ 31 = 0

/-- IEEE-754 equality on single bit patterns: never for NaN, the two zeros are
equal, otherwise equality of bit patterns. -/
def f32Eq (a b : Nat) : Bool :=
  if f32IsNaN a || f32IsNaN b then false
  else if f32IsZero a && f32IsZero b then true
  else a = b

/-- Hash of a `float32` key given its IEEE-754 bit pattern, mirroring
`float32Hash`: NaN sentinel, zero special case, otherwise the bit pattern is
fed to the 32-bit integer mixer. -/
def float32Hash (b : Nat) : Nat :=
  if f32IsNaN b then 0x7FFFFFFF
  else if f32IsZero b then 0
  else uint32Hash b

/-- NaN test on an IEEE-754 double bit pattern. -/
def f64IsNaN (b : Nat) : Bool :=
  (b >>> 52) % 2048 = 2047 ∧ b % 2 ^ 52 ≠ 0

/-- Zero test on an IEEE-754 double bit pattern. -/
def f64IsZero (b : Nat) : Bool :=
  b % 2 ^ 63 = 0

/-- IEEE-754 equality on double bit patterns. -/
def f64Eq (a b : Nat) : Bool :=
  if f64IsNaN a || f64IsNaN b then false
  else if f64IsZero a && f64IsZero b then true
  else a = b

/-- Hash of a `float64` key given its IEEE-754 bit pattern, mirroring
`float64Hash`. -/
def float64Hash (b : Nat) : Nat :=
  if f64IsNaN b then 0x7FFFFFFF
  else if f64IsZero b then 0
  else uint64Hash b

/-- Well-formedness of a container, as established by construction: the shard
array has exactly `mask + 1` slots, each shard's keys are distinct, and every
stored pair lives in the shard its key routes to. -/
def WellFormed (m : Map K V) : Prop :=
  m.shards.length = m.mask + 1 ∧
  (∀ i, ((m.shards.getD i []).map Prod.fst).Nodup) ∧
  (∀ i, ∀ p ∈ m.shards.getD i [], m.getShardIdx p.1 = i)

/-- Fold a list of serialization tuples into a container via `Put`, as the
load loop of `UnmarshalWith` does. -/
def putAllTuples (m : Map K V) (ts : List (Tuple K V)) : Map K V :=
  ts.foldl (fun acc t => acc.Put t.key t.value) m

/-- Container built by `Put`-inserting a list of pairs into a freshly
constructed map (the "inserted via Put" premise of the round-trip law). -/
def buildMap (hasher : K → Nat) (opts : Options K V) (pairs : List (K × V)) : Map K V :=
  pairs.foldl (fun acc p => acc.Put p.1 p.2) (createMap hasher opts)

/-- Last-occurrence lookup in a tuple list: the value the `Put`-replay of
`UnmarshalWith` leaves behind for a key. -/
def tupLookupLast : List (Tuple K V) → K → Option V
  | [], _ => none
  | t :: ts, k =>
    match tupLookupLast ts k with
    | some v => some v
    | none => if k = t.key then some t.value else none

/-- Concrete toy codec encoding for witnesses: a `Nat`-keyed, `Nat`-valued
entry list flattened to alternating key/value numbers. -/
def encPairs : List (Tuple Nat Nat) → List Nat
  | [] => []
  | t :: ts => t.key :: t.value :: encPairs ts

/-- Decoder inverting `encPairs`; fails on odd-length input. -/
def decPairs : List Nat → Except String (List (Tuple Nat Nat))
  | [] => Except.ok []
  | [_] => Except.error "odd length"
  | a :: b :: rest => (decPairs rest).map (fun l => ⟨a, b⟩ :: l)

/-- Toy codec used by witnesses: a genuinely invertible marshal/unmarshal
pair over concrete entry lists. -/
def pairCodec : SerializerFunc Nat Nat :=
  { name := "pairs"
    marshal := fun d => Except.ok (encPairs d.items)
    unmarshal := fun bs => (decPairs bs).map (fun l => ⟨l⟩)
    isJSON := false }

/-- Codec whose unmarshal always fails, for decode-error witnesses. -/
def failCodec : SerializerFunc Nat Nat :=
  { name := "fail"
    marshal := fun _ => Except.ok []
    unmarshal := fun _ => Except.error "bad bytes"
    isJSON := true }

end Defs

section ListLemmas

variable {K V : Type} [DecidableEq K]

lemma getD_set_self {α : Type} (l : List α) (i : Nat) (x d : α) (h : i < l.length) :
    (l.set i x).getD i d = x := by
  induction l generalizing i with
  | nil => simp at h
  | cons a t ih =>
    cases i with
    | zero => rfl
    | succ j => simpa [List.getD] using ih j (by simpa using h)

lemma getD_set_ne {α : Type} (l : List α) {i j : Nat} (x d : α) (h : i ≠ j) :
    (l.set i x).getD j d = l.getD j d := by
  induction l generalizing i j with
  | nil => rfl
  | cons a t ih =>
    cases i with
    | zero =>
      cases j with
      | zero => exact absurd rfl h
      | succ j2 => rfl
    | succ i2 =>
      cases j with
      | zero => rfl
      | succ j2 => simpa [List.getD] using ih (fun hc => h (by simp [hc]))

lemma getD_eq_get {α : Type} (l : List α) (i : Nat) (d : α) (h : i < l.length) :
    l.getD i d = l.get ⟨i, h⟩ := by
  induction l generalizing i with
  | nil => simp at h
  | cons a t ih =>
    cases i with
    | zero => rfl
    | succ j => simpa [List.getD] using ih j (by simpa using h)

lemma getD_out_of_bounds {α : Type} (l : List α) (i : Nat) (d : α) (h : l.length ≤ i) :
    l.getD i d = d := by
  induction l generalizing i with
  | nil => cases i <;> rfl
  | cons a t ih =>
    cases i with
    | zero => simp at h
    | succ j => simpa [List.getD] using ih j (by simpa using h)

lemma listGet_append (xs ys : List (K × V)) (k : K) :
    listGet (xs ++ ys) k =
      match listGet xs k with
      | some v => some v
      | none => listGet ys k := by
  induction xs with
  | nil => simp [listGet]
  | cons p t ih =>
    obtain ⟨a, b⟩ := p
    by_cases hak : a = k <;> simp [listGet, hak, ih]

lemma listGet_eq_none_of_not_mem (sh : List (K × V)) (k : K)
    (h : k ∉ sh.map Prod.fst) : listGet sh k = none := by
  induction sh with
  | nil => rfl
  | cons p t ih =>
    obtain ⟨a, b⟩ := p
    simp only [List.map_cons, List.mem_cons] at h
    push_neg at h
    have hak : ¬ a = k := fun hc => h.1 hc.symm
    simp [listGet, hak, ih h.2]

lemma mem_of_listGet_eq_some {sh : List (K × V)} {k : K} {v : V}
    (h : listGet sh k = some v) : (k, v) ∈ sh := by
  induction sh with
  | nil => simp [listGet] at h
  | cons p t ih =>
    obtain ⟨a, b⟩ := p
    by_cases hak : a = k
    · subst hak
      simp [listGet] at h
      simp [h]
    · simp [listGet, hak] at h
      exact List.mem_cons_of_mem _ (ih h)

lemma listGet_listPut (sh : List (K × V)) (k k2 : K) (v : V) :
    listGet (listPut sh k2 v) k = if k = k2 then some v else listGet sh k := by
  induction sh with
  | nil =>
    by_cases hk : k = k2
    · simp [listPut, listGet, hk]
    · have hk2 : ¬ k2 = k := fun h => hk h.symm
      simp [listPut, listGet, hk, hk2]
  | cons p t ih =>
    obtain ⟨a, b⟩ := p
    by_cases hak : a = k2
    · subst hak
      by_cases hk : k = a
      · simp [listPut, listGet, hk]
      · have hk2 : ¬ a = k := fun h => hk h.symm
        simp [listPut, listGet, hk, hk2]
    · by_cases hk : k = a
      · subst hk
        have hkk2 : ¬ k = k2 := fun h => hak (by simp [h])
        simp [listPut, hak, listGet, hkk2]
      · have hak2 : ¬ a = k := fun h => hk h.symm
        simp [listPut, hak, listGet, hak2, ih]

lemma keys_listPut (sh : List (K × V)) (k : K) (v : V) :
    (listPut sh k v).map Prod.fst =
      if k ∈ sh.map Prod.fst then sh.map Prod.fst else sh.map Prod.fst ++ [k] := by
  induction sh with
  | nil => simp [listPut]
  | cons p t ih =>
    obtain ⟨a, b⟩ := p
    by_cases hak : a = k
    · subst hak
      simp [listPut]
    · have hka : ¬ k = a := fun h => hak h.symm
      by_cases hmem : k ∈ t.map Prod.fst <;>
        simp [listPut, hak, ih, hmem, hka]

lemma nodup_keys_listPut (sh : List (K × V)) (k : K) (v : V)
    (h : (sh.map Prod.fst).Nodup) : ((listPut sh k v).map Prod.fst).Nodup := by
  rw [keys_listPut]
  by_cases hmem : k ∈ sh.map Prod.fst
  · simpa [hmem]
  · simpa [hmem] using List.Nodup.append h (List.nodup_singleton k)
      (by simpa [List.disjoint_singleton] using hmem)

lemma mem_listPut {sh : List (K × V)} {k : K} {v : V} {p : K × V}
    (h : p ∈ listPut sh k v) : p = (k, v) ∨ p ∈ sh := by
  induction sh with
  | nil => simpa [listPut] using h
  | cons q t ih =>
    obtain ⟨a, b⟩ := q
    by_cases hak : a = k
    · subst hak
      rcases (by simpa [listPut] using h : p = (a, v) ∨ p ∈ t) with h1 | h1
      · exact Or.inl h1
      · exact Or.inr (List.mem_cons_of_mem _ h1)
    · rcases (by simpa [listPut, hak] using h : p = (a, b) ∨ p ∈ listPut t k v) with h1 | h1
      · exact Or.inr (by simp [h1])
      · rcases ih h1 with h2 | h2
        · exact Or.inl h2
        · exact Or.inr (List.mem_cons_of_mem _ h2)

lemma length_listPut (sh : List (K × V)) (k : K) (v : V) :
    (listPut sh k v).length =
      if (listGet sh k).isSome then sh.length else sh.length + 1 := by
  induction sh with
  | nil => simp [listPut, listGet]
  | cons p t ih =>
    obtain ⟨a, b⟩ := p
    by_cases hak : a = k
    · subst hak
      simp [listPut, listGet]
    · simp only [listPut, hak, if_false, List.length_cons, listGet, ih]
      by_cases hs : (listGet t k).isSome <;> simp [hs, hak]

lemma listGet_listRemove_self (sh : List (K × V)) (k : K)
    (h : (sh.map Prod.fst).Nodup) : listGet (listRemove sh k) k = none := by
  induction sh with
  | nil => rfl
  | cons p t ih =>
    obtain ⟨a, b⟩ := p
    simp only [List.map_cons, List.nodup_cons] at h
    by_cases hak : a = k
    · subst hak
      simpa [listRemove] using listGet_eq_none_of_not_mem t a h.1
    · simp [listRemove, hak, listGet, ih h.2]

end ListLemmas

section BitLemmas

lemma testBit_lor_shift (x w i : Nat) :
    (x ||| (x >>> w)).testBit i = (x.testBit i || x.testBit (i + w)) := by
  rw [Nat.testBit_lor, Nat.testBit_shiftRight, Nat.add_comm w i]

lemma window_base (m : Nat) :
    ∀ i, m.testBit i = true ↔ ∃ d, d < 1 ∧ m.testBit (i + d) = true := by
  intro i
  constructor
  · intro h; exact ⟨0, Nat.zero_lt_one, by simpa using h⟩
  · rintro ⟨d, hd, hb⟩
    have hd0 : d = 0 := by omega
    simpa [hd0] using hb

lemma window_step {m x : Nat} (w : Nat)
    (h : ∀ i, x.testBit i = true ↔ ∃ d, d < w ∧ m.testBit (i + d) = true) :
    ∀ i, (x ||| (x >>> w)).testBit i = true ↔ ∃ d, d < 2 * w ∧ m.testBit (i + d) = true := by
  intro i
  rw [testBit_lor_shift, Bool.or_eq_true, h i, h (i + w)]
  constructor
  · rintro (⟨d, hd, hb⟩ | ⟨d, hd, hb⟩)
    · exact ⟨d, by omega, hb⟩
    · refine ⟨w + d, by omega, ?_⟩
      rwa [← Nat.add_assoc]
  · rintro ⟨d, hd, hb⟩
    by_cases hdw : d < w
    · exact Or.inl ⟨d, hdw, hb⟩
    · refine Or.inr ⟨d - w, by omega, ?_⟩
      have he : i + w + (d - w) = i + d := by omega
      rwa [he]

lemma testBit_size_pred {m : Nat} (hm : m ≠ 0) : m.testBit (m.size - 1) = true := by
  have hpos : 0 < m.size := Nat.size_pos.mpr (Nat.pos_of_ne_zero hm)
  have h1 : 2 ^ (m.size - 1) ≤ m := Nat.lt_size.mp (by omega)
  have h2 : m < 2 ^ m.size := Nat.lt_size_self m
  have hs : m.size = (m.size - 1) + 1 := by omega
  rw [hs, pow_succ] at h2
  have hlo : 1 ≤ m / 2 ^ (m.size - 1) :=
    (Nat.le_div_iff_mul_le (Nat.pos_pow_of_pos _ (by omega))).mpr (by omega)
  have hhi : m / 2 ^ (m.size - 1) < 2 :=
    Nat.div_lt_of_lt_mul (by omega)
  have hdiv : m / 2 ^ (m.size - 1) = 1 := by omega
  rw [Nat.testBit_to_div_mod, hdiv]
  decide

lemma smear_key (x0 x1 x2 x3 x4 x5 : Nat) (hx0 : x0 < 2 ^ 31)
    (e1 : x1 = x0 ||| (x0 >>> 1)) (e2 : x2 = x1 ||| (x1 >>> 2))
    (e3 : x3 = x2 ||| (x2 >>> 4)) (e4 : x4 = x3 ||| (x3 >>> 8))
    (e5 : x5 = x4 ||| (x4 >>> 16)) :
    (x5 + 1) % 2 ^ 32 = 2 ^ x0.size := by
  have w1 : ∀ i, x1.testBit i = true ↔ ∃ d, d < 2 ∧ x0.testBit (i + d) = true := by
    intro i
    rw [e1]
    simpa using window_step 1 (window_base x0) i
  have w2 : ∀ i, x2.testBit i = true ↔ ∃ d, d < 4 ∧ x0.testBit (i + d) = true := by
    intro i
    rw [e2]
    simpa using window_step 2 w1 i
  have w3 : ∀ i, x3.testBit i = true ↔ ∃ d, d < 8 ∧ x0.testBit (i + d) = true := by
    intro i
    rw [e3]
    simpa using window_step 4 w2 i
  have w4 : ∀ i, x4.testBit i = true ↔ ∃ d, d < 16 ∧ x0.testBit (i + d) = true := by
    intro i
    rw [e4]
    simpa using window_step 8 w3 i
  have hwin : ∀ i, x5.testBit i = true ↔ ∃ d, d < 32 ∧ x0.testBit (i + d) = true := by
    intro i
    rw [e5]
    simpa using window_step 16 w4 i
  have hsz : x0.size ≤ 31 := Nat.size_le.mpr hx0
  have hx5 : x5 = 2 ^ x0.size - 1 := by
    apply Nat.eq_of_testBit_eq
    intro i
    rw [Nat.testBit_two_pow_sub_one]
    by_cases hi : i < x0.size
    · have hx0ne : x0 ≠ 0 := by
        intro hc
        rw [hc] at hi
        simp [Nat.size_zero] at hi
      have hb := (hwin i).mpr ⟨x0.size - 1 - i, by omega, by
        have he : i + (x0.size - 1 - i) = x0.size - 1 := by omega
        rw [he]
        exact testBit_size_pred hx0ne⟩
      simp [hb, hi]
    · cases hb : x5.testBit i with
      | false => simp [hi]
      | true =>
        obtain ⟨d, hd, hbit⟩ := (hwin i).mp hb
        have hlt : x0 < 2 ^ (i + d) :=
          lt_of_lt_of_le (Nat.lt_size_self x0)
            (Nat.pow_le_pow_right (by omega) (by omega))
        rw [Nat.testBit_lt_two_pow hlt] at hbit
        exact absurd hbit Bool.false_ne_true
  rw [hx5]
  have hple : 2 ^ x0.size ≤ 2 ^ 31 := Nat.pow_le_pow_right (by omega) hsz
  have hppos : 0 < 2 ^ x0.size := by positivity
  have he2 : 2 ^ x0.size - 1 + 1 = 2 ^ x0.size := by omega
  rw [he2]
  exact Nat.mod_eq_of_lt (by omega)

lemma roundUpToPowerOf2_eq_pow_size {n : Nat} (h1 : 1 ≤ n) (h2 : n ≤ 2 ^ 31) :
    roundUpToPowerOf2 n = 2 ^ (n - 1).size := by
  have hn0 : ¬ n = 0 := by omega
  have hm : n - 1 < 2 ^ 32 := by omega
  have hmod : (n - 1) % 2 ^ 32 = n - 1 := Nat.mod_eq_of_lt hm
  unfold roundUpToPowerOf2
  rw [if_neg hn0]
  simp only [hmod]
  exact smear_key (n - 1) _ _ _ _ _ (by omega) rfl rfl rfl rfl rfl

lemma roundUpToPowerOf2_zero : roundUpToPowerOf2 0 = 1 := rfl

lemma roundUpToPowerOf2_ge {n : Nat} (h1 : 1 ≤ n) (h2 : n ≤ 2 ^ 31) :
    n ≤ roundUpToPowerOf2 n := by
  rw [roundUpToPowerOf2_eq_pow_size h1 h2]
  have := Nat.lt_size_self (n - 1)
  omega

lemma roundUpToPowerOf2_min {n j : Nat} (h1 : 1 ≤ n) (h2 : n ≤ 2 ^ 31)
    (hj : n ≤ 2 ^ j) : roundUpToPowerOf2 n ≤ 2 ^ j := by
  rw [roundUpToPowerOf2_eq_pow_size h1 h2]
  exact Nat.pow_le_pow_right (by omega) (Nat.size_le.mpr (by omega))

lemma roundUpToPowerOf2_le {n : Nat} (h2 : n ≤ 2 ^ 31) :
    roundUpToPowerOf2 n ≤ 2 ^ 31 := by
  rcases Nat.eq_zero_or_pos n with hn | hn
  · subst hn; rw [roundUpToPowerOf2_zero]; omega
  · exact roundUpToPowerOf2_min hn h2 h2

lemma roundUpToPowerOf2_pos {n : Nat} (h2 : n ≤ 2 ^ 31) :
    1 ≤ roundUpToPowerOf2 n := by
  rcases Nat.eq_zero_or_pos n with hn | hn
  · subst hn; rw [roundUpToPowerOf2_zero]
  · calc 1 ≤ n := hn
    _ ≤ roundUpToPowerOf2 n := roundUpToPowerOf2_ge hn h2

end BitLemmas

section MapLemmas

variable {K V : Type} [DecidableEq K]

lemma getShardIdx_le_mask (m : Map K V) (k : K) : m.getShardIdx k ≤ m.mask :=
  Nat.and_le_right

lemma WellFormed.idx_lt {m : Map K V} (h : WellFormed m) (k : K) :
    m.getShardIdx k < m.shards.length := by
  have h1 := getShardIdx_le_mask m k
  have h2 := h.1
  omega

lemma getShardIdx_Put (m : Map K V) (k k2 : K) (v : V) :
    (m.Put k2 v).getShardIdx k = m.getShardIdx k := rfl

lemma getShardIdx_Clear (m : Map K V) (k : K) :
    m.Clear.getShardIdx k = m.getShardIdx k := rfl

lemma Put_shards (m : Map K V) (k : K) (v : V) :
    (m.Put k v).shards =
      m.shards.set (m.getShardIdx k) (listPut (m.getShard k) k v) := rfl

lemma Clear_shards (m : Map K V) :
    m.Clear.shards = m.shards.map (fun _ => []) := rfl

lemma Get_eq_listGet (m : Map K V) (k : K) :
    m.Get k = listGet (m.shards.getD (m.getShardIdx k) []) k := rfl

lemma Get_Put (m : Map K V) (hWF : WellFormed m) (k k2 : K) (v : V) :
    (m.Put k2 v).Get k = if k = k2 then some v else m.Get k := by
  have hlt2 : m.getShardIdx k2 < m.shards.length := hWF.idx_lt k2
  rw [Get_eq_listGet, getShardIdx_Put, Put_shards]
  by_cases hidx : m.getShardIdx k = m.getShardIdx k2
  · rw [hidx, getD_set_self _ _ _ _ hlt2, listGet_listPut]
    rw [Get_eq_listGet, hidx]
    rfl
  · have hkk : ¬ k = k2 := fun h => hidx (by rw [h])
    rw [getD_set_ne m.shards _ _ (fun h => hidx h.symm), if_neg hkk, Get_eq_listGet]

lemma WF_Put (m : Map K V) (hWF : WellFormed m) (k : K) (v : V) :
    WellFormed (m.Put k v) := by
  have hlt : m.getShardIdx k < m.shards.length := hWF.idx_lt k
  refine ⟨?_, ?_, ?_⟩
  · rw [Put_shards]
    simpa using hWF.1
  · intro i
    rw [Put_shards]
    by_cases hii : m.getShardIdx k = i
    · rw [← hii, getD_set_self _ _ _ _ hlt]
      exact nodup_keys_listPut _ _ _ (hWF.2.1 _)
    · rw [getD_set_ne _ _ _ hii]
      exact hWF.2.1 _
  · intro i p hp
    rw [getShardIdx_Put]
    rw [Put_shards] at hp
    by_cases hii : m.getShardIdx k = i
    · rw [← hii, getD_set_self _ _ _ _ hlt] at hp
      rcases mem_listPut hp with h1 | h1
      · rw [h1]
        exact hii
      · have h2 : p ∈ m.shards.getD (m.getShardIdx k) [] := h1
        rw [← hii]
        exact hWF.2.2 _ _ h2
    · rw [getD_set_ne _ _ _ hii] at hp
      exact hWF.2.2 _ _ hp

lemma sum_map_set (l : List (List (K × V))) (i : Nat) (x : List (K × V))
    (h : i < l.length) :
    ((l.set i x).map List.length).sum + (l.get ⟨i, h⟩).length =
      (l.map List.length).sum + x.length := by
  induction l generalizing i with
  | nil => simp at h
  | cons a t ih =>
    cases i with
    | zero => simp [Nat.add_comm, Nat.add_left_comm, Nat.add_assoc]
    | succ j =>
      have hj : j < t.length := by simpa using h
      have := ih j hj
      simp only [List.set, List.map_cons, List.sum_cons, List.get]
      omega

lemma Size_Put (m : Map K V) (hWF : WellFormed m) (k : K) (v : V) :
    (m.Put k v).Size = if (m.Get k).isSome then m.Size else m.Size + 1 := by
  have hlt : m.getShardIdx k < m.shards.length := hWF.idx_lt k
  have hshard : m.getShard k = m.shards.get ⟨m.getShardIdx k, hlt⟩ :=
    getD_eq_get _ _ _ hlt
  have hsum := sum_map_set m.shards (m.getShardIdx k) (listPut (m.getShard k) k v) hlt
  have hlen := length_listPut (m.getShard k) k v
  have hget : m.Get k = listGet (m.getShard k) k := rfl
  show ((m.shards.set (m.getShardIdx k) (listPut (m.getShard k) k v)).map
      List.length).sum = _
  rw [hget]
  by_cases hs : (listGet (m.getShard k) k).isSome
  · rw [if_pos hs]
    rw [hs, if_pos rfl] at hlen
    show _ = (m.shards.map List.length).sum
    rw [← hshard] at hsum
    omega
  · rw [if_neg hs]
    rw [Bool.not_eq_true] at hs
    rw [hs] at hlen
    simp only [Bool.false_eq_true, if_false] at hlen
    show _ = (m.shards.map List.length).sum + 1
    rw [← hshard] at hsum
    omega

lemma Get_Clear (m : Map K V) (k : K) : m.Clear.Get k = none := by
  rw [Get_eq_listGet, getShardIdx_Clear, Clear_shards]
  by_cases h : m.getShardIdx k < m.shards.length
  · rw [getD_eq_get _ _ _ (by simpa using h), List.get_map]
    rfl
  · rw [getD_out_of_bounds _ _ _ (by simpa using Nat.not_lt.mp h)]
    rfl

lemma Size_Clear (m : Map K V) : m.Clear.Size = 0 := by
  show ((m.shards.map (fun _ => [])).map List.length).sum = 0
  rw [List.map_map]
  apply List.sum_eq_zero
  intro x hx
  rcases List.mem_map.mp hx with ⟨sh, _, hsh⟩
  simpa using hsh.symm

lemma getD_map_const_nil (L : List (List (K × V))) (i : Nat) :
    (L.map (fun _ => ([] : List (K × V)))).getD i [] = [] := by
  by_cases h : i < L.length
  · rw [getD_eq_get _ _ _ (by simpa using h), List.get_map]
  · rw [getD_out_of_bounds _ _ _ (by simpa using Nat.not_lt.mp h)]

lemma WF_Clear (m : Map K V) (hWF : WellFormed m) : WellFormed m.Clear := by
  refine ⟨?_, ?_, ?_⟩
  · rw [Clear_shards]
    simpa using hWF.1
  · intro i
    rw [Clear_shards, getD_map_const_nil]
    simp
  · intro i p hp
    rw [Clear_shards, getD_map_const_nil] at hp
    simp at hp

lemma Get_mk_dirty (m : Map K V) (b : Bool) (k : K) :
    (Map.mk m.shards m.mask b m.hasher m.serializer).Get k = m.Get k := rfl

lemma Size_mk_dirty (m : Map K V) (b : Bool) :
    (Map.mk m.shards m.mask b m.hasher m.serializer).Size = m.Size := rfl

end MapLemmas

section FlattenLemmas

variable {K V : Type} [DecidableEq K]

lemma listGet_flatten_none {L : List (List (K × V))} {k : K}
    (h : ∀ sh ∈ L, listGet sh k = none) : listGet L.flatten k = none := by
  induction L with
  | nil => rfl
  | cons a t ih =>
    rw [List.flatten_cons, listGet_append, h a (List.mem_cons_self a t)]
    exact ih (fun sh hsh => h sh (List.mem_cons_of_mem a hsh))

lemma listGet_flatten_eq (L : List (List (K × V))) (i : Nat) (k : K)
    (h : ∀ j, j ≠ i → listGet (L.getD j []) k = none) :
    listGet L.flatten k = listGet (L.getD i []) k := by
  induction L generalizing i with
  | nil =>
    cases i <;> rfl
  | cons a t ih =>
    rw [List.flatten_cons, listGet_append]
    cases i with
    | zero =>
      have hrest : listGet t.flatten k = none := by
        apply listGet_flatten_none
        intro sh hsh
        rcases List.mem_iff_get.mp hsh with ⟨⟨j2, hj2⟩, hget⟩
        have := h (j2 + 1) (Nat.succ_ne_zero j2)
        rwa [show ((a :: t).getD (j2 + 1) []) = t.getD j2 [] from rfl,
          getD_eq_get _ _ _ hj2, hget] at this
      rw [show ((a :: t).getD 0 []) = a from rfl]
      cases hl : listGet a k with
      | some v => rfl
      | none =>
        show listGet t.flatten k = none
        exact hrest
    | succ i2 =>
      have ha : listGet a k = none := by
        have h0 := h 0 (by omega)
        simpa using h0
      rw [ha]
      show listGet t.flatten k = listGet (t.getD i2 []) k
      apply ih
      intro j hj
      have hj1 := h (j + 1) (by omega)
      simpa using hj1

lemma listGet_flatten_routed (m : Map K V) (hWF : WellFormed m) (k : K) :
    listGet m.shards.flatten k = m.Get k := by
  rw [Get_eq_listGet]
  apply listGet_flatten_eq
  intro j hj
  cases hlg : listGet (m.shards.getD j []) k with
  | none => rfl
  | some v =>
    exact absurd (hWF.2.2 j (k, v) (mem_of_listGet_eq_some hlg)).symm hj

lemma nodup_keys_flatten (m : Map K V) (hWF : WellFormed m) :
    (m.shards.flatten.map Prod.fst).Nodup := by
  rw [List.map_flatten, List.nodup_flatten]
  constructor
  · intro l hl
    rcases List.mem_map.mp hl with ⟨sh, hsh, rfl⟩
    rcases List.mem_iff_get.mp hsh with ⟨⟨j, hj⟩, hget⟩
    have hn := hWF.2.1 j
    rwa [getD_eq_get _ _ _ hj, hget] at hn
  · rw [List.pairwise_map, List.pairwise_iff_get]
    intro i j hij
    intro x hx1 hx2
    rcases List.mem_map.mp hx1 with ⟨p1, hp1, hxp1⟩
    rcases List.mem_map.mp hx2 with ⟨p2, hp2, hxp2⟩
    have h1 := hWF.2.2 i.1 p1 (by rwa [getD_eq_get _ _ _ i.2])
    have h2 := hWF.2.2 j.1 p2 (by rwa [getD_eq_get _ _ _ j.2])
    rw [hxp1] at h1
    rw [hxp2] at h2
    rw [h1] at h2
    have hlt : (i : Nat) < (j : Nat) := hij
    omega

end FlattenLemmas

section FoldLemmas

variable {K V : Type} [DecidableEq K]

lemma tupLookupLast_eq_none_of_not_mem (ts : List (Tuple K V)) (k : K)
    (h : k ∉ ts.map Tuple.key) : tupLookupLast ts k = none := by
  induction ts with
  | nil => rfl
  | cons t ts ih =>
    simp only [List.map_cons, List.mem_cons] at h
    push_neg at h
    rw [tupLookupLast, ih h.2]
    simp [h.1]

lemma tupLookupLast_eq_listGet (ts : List (Tuple K V)) (k : K)
    (hnd : (ts.map Tuple.key).Nodup) :
    tupLookupLast ts k = listGet (ts.map (fun t => (t.key, t.value))) k := by
  induction ts with
  | nil => rfl
  | cons t ts ih =>
    simp only [List.map_cons, List.nodup_cons] at hnd
    rw [tupLookupLast, List.map_cons]
    by_cases hk : k = t.key
    · subst hk
      rw [tupLookupLast_eq_none_of_not_mem ts t.key hnd.1]
      simp [listGet]
    · have hkt : ¬ t.key = k := fun h => hk h.symm
      rw [ih hnd.2]
      cases hl : listGet (ts.map (fun t => (t.key, t.value))) k with
      | some v => simp [listGet, hkt, hl]
      | none => simp [listGet, hkt, hl, hk]

lemma putAllTuples_nil (m : Map K V) : putAllTuples m [] = m := rfl

lemma putAllTuples_cons (m : Map K V) (t : Tuple K V) (ts : List (Tuple K V)) :
    putAllTuples m (t :: ts) = putAllTuples (m.Put t.key t.value) ts := rfl

lemma WF_putAllTuples (m : Map K V) (hWF : WellFormed m) (ts : List (Tuple K V)) :
    WellFormed (putAllTuples m ts) := by
  induction ts generalizing m with
  | nil => exact hWF
  | cons t ts ih =>
    rw [putAllTuples_cons]
    exact ih _ (WF_Put m hWF t.key t.value)

lemma Get_putAllTuples (m : Map K V) (hWF : WellFormed m) (ts : List (Tuple K V)) (k : K) :
    (putAllTuples m ts).Get k =
      match tupLookupLast ts k with
      | some v => some v
      | none => m.Get k := by
  induction ts generalizing m with
  | nil => rfl
  | cons t ts ih =>
    rw [putAllTuples_cons, ih _ (WF_Put m hWF t.key t.value), tupLookupLast]
    cases hl : tupLookupLast ts k with
    | some v => rfl
    | none =>
      rw [Get_Put m hWF]
      by_cases hc : k = t.key <;> simp [hc]

lemma Size_putAllTuples (m : Map K V) (hWF : WellFormed m) (ts : List (Tuple K V))
    (habs : ∀ t ∈ ts, m.Get t.key = none) (hnd : (ts.map Tuple.key).Nodup) :
    (putAllTuples m ts).Size = m.Size + ts.length := by
  induction ts generalizing m with
  | nil => rfl
  | cons t ts ih =>
    simp only [List.map_cons, List.nodup_cons] at hnd
    rw [putAllTuples_cons]
    have habs2 : ∀ t2 ∈ ts, (m.Put t.key t.value).Get t2.key = none := by
      intro t2 ht2
      rw [Get_Put m hWF]
      have hne : ¬ t2.key = t.key := by
        intro hc
        exact hnd.1 (hc ▸ List.mem_map_of_mem Tuple.key ht2)
      rw [if_neg hne]
      exact habs t2 (List.mem_cons_of_mem t ht2)
    rw [ih _ (WF_Put m hWF t.key t.value) habs2 hnd.2]
    have hsz := Size_Put m hWF t.key t.value
    rw [habs t (List.mem_cons_self t ts)] at hsz
    simp only [Option.isSome_none, Bool.false_eq_true, if_false] at hsz
    rw [hsz]
    simp [Nat.add_comm, Nat.add_assoc, Nat.add_left_comm]

lemma createMap_shards (hasher : K → Nat) (opts : Options K V) :
    (createMap hasher opts).shards =
      List.replicate (roundUpToPowerOf2 (opts.ShardCount % 2 ^ 32)) [] := rfl

lemma createMap_mask (hasher : K → Nat) (opts : Options K V) :
    (createMap hasher opts).mask =
      (roundUpToPowerOf2 (opts.ShardCount % 2 ^ 32) + (2 ^ 32 - 1)) % 2 ^ 32 := rfl

lemma createMap_dirty (hasher : K → Nat) (opts : Options K V) :
    (createMap hasher opts).dirty = false := rfl

lemma createMap_serializer (hasher : K → Nat) (opts : Options K V) :
    (createMap hasher opts).serializer = opts.Serializer := rfl

lemma createMap_mask_succ (hasher : K → Nat) (opts : Options K V)
    (h : opts.ShardCount ≤ 2 ^ 31) :
    (createMap hasher opts).mask + 1 = roundUpToPowerOf2 opts.ShardCount := by
  have h32 : (2 : Nat) ^ 32 = 4294967296 := by norm_num
  have h31 : (2 : Nat) ^ 31 = 2147483648 := by norm_num
  have hmod : opts.ShardCount % 2 ^ 32 = opts.ShardCount :=
    Nat.mod_eq_of_lt (by omega)
  have hpos := roundUpToPowerOf2_pos (n := opts.ShardCount) h
  have hle := roundUpToPowerOf2_le (n := opts.ShardCount) h
  rw [createMap_mask, hmod]
  omega

lemma getD_replicate_nil (n i : Nat) :
    (List.replicate n ([] : List (K × V))).getD i [] = [] := by
  by_cases h : i < n
  · rw [getD_eq_get _ _ _ (by simpa using h)]
    exact List.get_replicate _ _
  · rw [getD_out_of_bounds _ _ _ (by simpa using Nat.not_lt.mp h)]

lemma WF_createMap (hasher : K → Nat) (opts : Options K V)
    (h : opts.ShardCount ≤ 2 ^ 31) : WellFormed (createMap hasher opts) := by
  have h32 : (2 : Nat) ^ 32 = 4294967296 := by norm_num
  have h31 : (2 : Nat) ^ 31 = 2147483648 := by norm_num
  have hmod : opts.ShardCount % 2 ^ 32 = opts.ShardCount :=
    Nat.mod_eq_of_lt (by omega)
  refine ⟨?_, ?_, ?_⟩
  · rw [createMap_shards, List.length_replicate, createMap_mask_succ hasher opts h, hmod]
  · intro i
    rw [createMap_shards, getD_replicate_nil]
    simp
  · intro i p hp
    rw [createMap_shards, getD_replicate_nil] at hp
    simp at hp

lemma Get_createMap (hasher : K → Nat) (opts : Options K V) (k : K) :
    (createMap hasher opts).Get k = none := by
  rw [Get_eq_listGet]
  rw [show (createMap hasher opts).shards =
    List.replicate (roundUpToPowerOf2 (opts.ShardCount % 2 ^ 32)) [] from rfl]
  rw [getD_replicate_nil]
  rfl

lemma Size_createMap (hasher : K → Nat) (opts : Options K V) :
    (createMap hasher opts).Size = 0 := by
  show ((List.replicate (roundUpToPowerOf2 (opts.ShardCount % 2 ^ 32))
    ([] : List (K × V))).map List.length).sum = 0
  rw [List.map_replicate]
  simp

end FoldLemmas

section RemoveLemmas

variable {K V : Type} [DecidableEq K]

lemma Remove_absent (m : Map K V) (k : K) (h : m.Get k = none) : m.Remove k = m := by
  have h2 : listGet (m.getShard k) k = none := h
  unfold Map.Remove
  rw [h2]
  simp

lemma Remove_present_dirty (m : Map K V) (k : K) (v : V) (h : m.Get k = some v) :
    (m.Remove k).dirty = true := by
  have h2 : listGet (m.getShard k) k = some v := h
  unfold Map.Remove
  rw [h2]
  simp

lemma Remove_present_get (m : Map K V) (hWF : WellFormed m) (k : K) (v : V)
    (h : m.Get k = some v) : (m.Remove k).Get k = none := by
  have hlt := hWF.idx_lt k
  have h2 : listGet (m.getShard k) k = some v := h
  unfold Map.Remove
  rw [h2]
  simp only [Option.isSome_some, if_true]
  rw [Get_eq_listGet]
  show listGet
    ((m.shards.set (m.getShardIdx k) (listRemove (m.getShard k) k)).getD
      (m.getShardIdx k) []) k = none
  rw [getD_set_self _ _ _ _ hlt]
  exact listGet_listRemove_self _ _ (hWF.2.1 _)

lemma WF_foldl_put (pairs : List (K × V)) (m : Map K V) (hWF : WellFormed m) :
    WellFormed (pairs.foldl (fun acc p => acc.Put p.1 p.2) m) := by
  induction pairs generalizing m with
  | nil => exact hWF
  | cons p ps ih => exact ih _ (WF_Put m hWF p.1 p.2)

lemma WF_buildMap (hasher : K → Nat) (opts : Options K V) (pairs : List (K × V))
    (h : opts.ShardCount ≤ 2 ^ 31) : WellFormed (buildMap hasher opts pairs) :=
  WF_foldl_put pairs _ (WF_createMap hasher opts h)

end RemoveLemmas

section SaveLemmas

variable {K V : Type} [DecidableEq K]

lemma SaveToFile_skip (m : Map K V) (fs : FS) (filename : String)
    (s : SerializerFunc K V) (hf : ¬ filename = "") (hs : m.serializer = some s)
    (hsz : 0 < m.Size) (hd : m.dirty = false) :
    m.SaveToFile fs filename =
      ⟨m, fs,
        if ¬ filepathIsAbs filename ∧ filepathDir filename ≠ "." ∧ filepathDir filename ≠ ""
          then [IOEvent.mkdirAll (filepathDir filename)] else [], none⟩ := by
  unfold Map.SaveToFile
  rw [if_neg hf, hs]
  dsimp only
  rw [if_pos ⟨hsz, hd⟩]

lemma SaveToFile_write (m : Map K V) (fs : FS) (filename : String)
    (s : SerializerFunc K V) (data : List Nat) (hf : ¬ filename = "")
    (hs : m.serializer = some s) (hnd : ¬ (0 < m.Size ∧ m.dirty = false))
    (hm : m.MarshalWith s = Except.ok data) :
    m.SaveToFile fs filename =
      ⟨{ m with dirty := false },
        ((fs.write (filename ++ ".tmp") data).write filename data).removeFile
          (filename ++ ".tmp"),
        (if ¬ filepathIsAbs filename ∧ filepathDir filename ≠ "." ∧ filepathDir filename ≠ ""
          then [IOEvent.mkdirAll (filepathDir filename)] else []) ++
          [IOEvent.writeFile (filename ++ ".tmp") data,
            IOEvent.rename (filename ++ ".tmp") filename], none⟩ := by
  unfold Map.SaveToFile
  rw [if_neg hf, hs]
  dsimp only
  rw [if_neg hnd, hm]

lemma SaveToFile_err_empty (m : Map K V) (fs : FS) (filename : String)
    (hf : filename = "") :
    m.SaveToFile fs filename = ⟨m, fs, [], some "filename cannot be empty"⟩ := by
  unfold Map.SaveToFile
  rw [if_pos hf]

lemma SaveToFile_err_noser (m : Map K V) (fs : FS) (filename : String)
    (hf : ¬ filename = "") (hs : m.serializer = none) :
    m.SaveToFile fs filename =
      ⟨m, fs,
        if ¬ filepathIsAbs filename ∧ filepathDir filename ≠ "." ∧ filepathDir filename ≠ ""
          then [IOEvent.mkdirAll (filepathDir filename)] else [],
        some "no serializer configured for marshaling"⟩ := by
  unfold Map.SaveToFile
  rw [if_neg hf, hs]

lemma SaveToFile_err_marshal (m : Map K V) (fs : FS) (filename : String)
    (s : SerializerFunc K V) (e : String) (hf : ¬ filename = "")
    (hs : m.serializer = some s) (hnd : ¬ (0 < m.Size ∧ m.dirty = false))
    (hm : m.MarshalWith s = Except.error e) :
    (m.SaveToFile fs filename).err = some ("failed to marshal data: " ++ e) := by
  unfold Map.SaveToFile
  rw [if_neg hf, hs]
  dsimp only
  rw [if_neg hnd, hm]

lemma isWrite_false_of_mem_mkdir {c : Prop} [Decidable c] {d : String} {e : IOEvent}
    (he : e ∈ (if c then [IOEvent.mkdirAll d] else [])) : e.isWrite = false := by
  by_cases hc : c
  · rw [if_pos hc] at he
    simp only [List.mem_singleton] at he
    rw [he]
    rfl
  · rw [if_neg hc] at he
    simp at he

end SaveLemmas

section Claims

variable {K V : Type} [DecidableEq K]

/-- C7: `Remove(k)` on a container where `k` is absent leaves the container
untouched — in particular the dirty flag and every `Get` result are
unchanged — while `Remove(k)` on a container where `k` is present sets the
dirty flag and makes a subsequent `Get(k)` miss. -/
theorem c7_remove_semantics (m : Map K V) (k : K) (hWF : WellFormed m) :
    (m.Get k = none →
      m.Remove k = m ∧ (m.Remove k).dirty = m.dirty ∧
        ∀ k2, (m.Remove k).Get k2 = m.Get k2) ∧
    (∀ v, m.Get k = some v →
      (m.Remove k).dirty = true ∧ (m.Remove k).Get k = none) := by
  constructor
  · intro h
    have he := Remove_absent m k h
    exact ⟨he, by rw [he], fun k2 => by rw [he]⟩
  · intro v hv
    exact ⟨Remove_present_dirty m k v hv, Remove_present_get m hWF k v hv⟩

/-- Witness for C7 at a concrete two-shard container holding `(3, 30)`:
removing the present key `3` sets the dirty flag and makes `Get 3` miss,
while removing the absent key `7` leaves the container unchanged. -/
theorem c7_remove_semantics_witness :
    ((buildMap (fun n => n) (⟨2, none⟩ : Options Nat Nat) [(3, 30)]).Remove 3).dirty = true ∧
    ((buildMap (fun n => n) (⟨2, none⟩ : Options Nat Nat) [(3, 30)]).Remove 3).Get 3 = none ∧
    (buildMap (fun n => n) (⟨2, none⟩ : Options Nat Nat) [(3, 30)]).Remove 7 =
      buildMap (fun n => n) (⟨2, none⟩ : Options Nat Nat) [(3, 30)] := by
  have hWF : WellFormed (buildMap (fun n => n) (⟨2, none⟩ : Options Nat Nat) [(3, 30)]) :=
    WF_buildMap _ _ _ (by norm_num)
  have h3 := c7_remove_semantics (buildMap (fun n => n) (⟨2, none⟩ : Options Nat Nat) [(3, 30)]) 3 hWF
  have h7 := c7_remove_semantics (buildMap (fun n => n) (⟨2, none⟩ : Options Nat Nat) [(3, 30)]) 7 hWF
  exact ⟨(h3.2 30 (by decide)).1, (h3.2 30 (by decide)).2, (h7.1 (by decide)).1⟩

/-- C10: a container is `Empty` exactly when its `Size` is zero, for every
container state. -/
theorem c10_empty_iff_size_zero (m : Map K V) : m.Empty = true ↔ m.Size = 0 := by
  show m.shards.all List.isEmpty = true ↔ (m.shards.map List.length).sum = 0
  rw [List.all_eq_true]
  induction m.shards with
  | nil => simp
  | cons a t ih =>
    simp only [List.map_cons, List.sum_cons, List.mem_cons]
    constructor
    · intro h
      have ha := h a (Or.inl rfl)
      have ht := ih.mp (fun sh hsh => h sh (Or.inr hsh))
      rw [List.isEmpty_iff_length_eq_zero] at ha
      omega
    · intro h
      have ha : a.length = 0 := by omega
      have ht := ih.mpr (by omega)
      intro sh hsh
      rcases hsh with hsh | hsh
      · rw [hsh, List.isEmpty_iff_length_eq_zero]
        exact ha
      · exact ht sh hsh

/-- C2: when the codec's unmarshal fails on a byte sequence, `UnmarshalWith`
returns the decode error and leaves the container completely unchanged (same
state, hence same dirty flag and same `Get` results), and `LoadFromFile` on a
non-empty file with such content propagates the decode error equally without
mutating the container. -/
theorem c2_decode_error_no_mutation (m : Map K V) (data : List Nat)
    (s : SerializerFunc K V) (e : String) (fs : FS) (filename : String)
    (herr : s.unmarshal data = Except.error e) :
    (m.UnmarshalWith data s = (m, some e) ∧
      (m.UnmarshalWith data s).1.dirty = m.dirty ∧
      ∀ k, (m.UnmarshalWith data s).1.Get k = m.Get k) ∧
    (filename ≠ "" → m.serializer = some s → fs.files filename = some data →
      data ≠ [] →
      (m.LoadFromFile fs filename).map = m ∧
        (m.LoadFromFile fs filename).err =
          some ("failed to unmarshal data from " ++ filename ++ ": " ++ e)) := by
  have h1 : m.UnmarshalWith data s = (m, some e) := by
    unfold Map.UnmarshalWith
    rw [herr]
  refine ⟨⟨h1, by rw [h1], fun k => by rw [h1]⟩, ?_⟩
  intro hf hs hfile hne
  have hlen : ¬ data.length = 0 := by
    intro hc
    exact hne (List.length_eq_zero.mp hc)
  unfold Map.LoadFromFile
  rw [if_neg hf, hs, hfile]
  simp only [if_neg hlen, h1]
  exact ⟨trivial, trivial⟩

/-- Witness for C2: a concrete container, the always-failing codec and a
concrete one-byte file. -/
theorem c2_decode_error_no_mutation_witness :
    ((buildMap (fun n => n) (⟨2, some failCodec⟩ : Options Nat Nat) [(3, 30)]).UnmarshalWith
        [7] failCodec =
      (buildMap (fun n => n) (⟨2, some failCodec⟩ : Options Nat Nat) [(3, 30)], some "bad bytes")) ∧
    ((buildMap (fun n => n) (⟨2, some failCodec⟩ : Options Nat Nat) [(3, 30)]).LoadFromFile
        ⟨fun p => if p = "g" then some [7] else none⟩ "g").err =
      some "failed to unmarshal data from g: bad bytes" := by
  have h := c2_decode_error_no_mutation
    (buildMap (fun n => n) (⟨2, some failCodec⟩ : Options Nat Nat) [(3, 30)]) [7] failCodec
    "bad bytes" ⟨fun p => if p = "g" then some [7] else none⟩ "g" rfl
  refine ⟨h.1.1, ?_⟩
  have h2 := h.2 (by decide) rfl (by decide) (by decide)
  exact h2.2

/-- C3 falsified: with the gob codec configured (whose `IsJSON` reports
`false`), `getJSONSerializer` returns the configured gob codec itself — the
Go interface assertion succeeds for every `*SerializerFunc` — so
`MarshalJSON` encodes with a non-JSON codec instead of a JSON fallback. -/
theorem c3_counterexample :
    (createMap (fun n => n) (⟨4, some (GobSerializer Nat Nat)⟩ : Options Nat Nat)).getJSONSerializer =
      GobSerializer Nat Nat ∧
    ((createMap (fun n => n) (⟨4, some (GobSerializer Nat Nat)⟩ : Options Nat Nat)).getJSONSerializer).isJSON =
      false ∧
    (createMap (fun n => n) (⟨4, some (GobSerializer Nat Nat)⟩ : Options Nat Nat)).MarshalJSON =
      (createMap (fun n => n) (⟨4, some (GobSerializer Nat Nat)⟩ : Options Nat Nat)).MarshalWith
        (GobSerializer Nat Nat) :=
  ⟨rfl, rfl, rfl⟩

/-- C3 amended: `getJSONSerializer` (and hence `MarshalJSON` and
`UnmarshalJSON`) uses the configured codec whenever one is set — regardless
of its `isJSON` flag, because every `*SerializerFunc` satisfies the
`JSONCompatible` interface check — and falls back to the standard JSON codec
only when no codec is configured. -/
theorem c3_amended (m : Map K V) :
    (∀ s, m.serializer = some s →
      m.getJSONSerializer = s ∧
        (∀ data, m.UnmarshalJSON data = m.UnmarshalWith data s) ∧
        m.MarshalJSON = m.MarshalWith s) ∧
    (m.serializer = none → m.getJSONSerializer = JsonSerializer K V) := by
  constructor
  · intro s hs
    have hg : m.getJSONSerializer = s := by
      unfold Map.getJSONSerializer
      rw [hs]
    exact ⟨hg, fun data => by unfold Map.UnmarshalJSON; rw [hg],
      by unfold Map.MarshalJSON; rw [hg]⟩
  · intro hs
    unfold Map.getJSONSerializer
    rw [hs]

/-- Witness for C3 amended: the gob-configured container uses gob, and an
unconfigured container falls back to the JSON codec. -/
theorem c3_amended_witness :
    (createMap (fun n => n) (⟨4, some (GobSerializer Nat Nat)⟩ : Options Nat Nat)).getJSONSerializer =
      GobSerializer Nat Nat ∧
    (createMap (fun n => n) (⟨4, none⟩ : Options Nat Nat)).getJSONSerializer =
      JsonSerializer Nat Nat :=
  ⟨((c3_amended _).1 (GobSerializer Nat Nat) rfl).1, (c3_amended _).2 rfl⟩

/-- C8: the float hash functions return the fixed sentinel `0x7FFFFFFF` on
NaN bit patterns, return `0` on the two zero bit patterns, apply the integer
mixer to the raw IEEE-754 bit pattern otherwise, and consequently IEEE-equal
float keys always hash identically. -/
theorem c8_float_hash_cases :
    (∀ b, f32IsNaN b = true → float32Hash b = 0x7FFFFFFF) ∧
    (∀ b, f32IsNaN b = false → f32IsZero b = true → float32Hash b = 0) ∧
    (∀ b, f32IsNaN b = false → f32IsZero b = false → float32Hash b = uint32Hash b) ∧
    (∀ a b, f32Eq a b = true → float32Hash a = float32Hash b) ∧
    (∀ b, f64IsNaN b = true → float64Hash b = 0x7FFFFFFF) ∧
    (∀ b, f64IsNaN b = false → f64IsZero b = true → float64Hash b = 0) ∧
    (∀ b, f64IsNaN b = false → f64IsZero b = false → float64Hash b = uint64Hash b) ∧
    (∀ a b, f64Eq a b = true → float64Hash a = float64Hash b) := by
  refine ⟨?_, ?_, ?_, ?_, ?_, ?_, ?_, ?_⟩
  · intro b h
    unfold float32Hash
    rw [h]
    rfl
  · intro b hn hz
    unfold float32Hash
    rw [hn, hz]
    rfl
  · intro b hn hz
    unfold float32Hash
    rw [hn, hz]
    rfl
  · intro a b h
    unfold f32Eq at h
    by_cases hna : f32IsNaN a = true
    · simp [hna] at h
    · by_cases hnb : f32IsNaN b = true
      · simp [hnb] at h
      · rw [Bool.not_eq_true] at hna hnb
        rw [hna, hnb] at h
        simp only [Bool.or_self, Bool.false_eq_true, if_false] at h
        by_cases hz : (f32IsZero a && f32IsZero b) = true
        · rw [Bool.and_eq_true] at hz
          unfold float32Hash
          rw [hna, hnb, hz.1, hz.2]
          simp
        · simp only [hz, if_false] at h
          have hab : a = b := by simpa using h
          rw [hab]
  · intro b h
    unfold float64Hash
    rw [h]
    rfl
  · intro b hn hz
    unfold float64Hash
    rw [hn, hz]
    rfl
  · intro b hn hz
    unfold float64Hash
    rw [hn, hz]
    rfl
  · intro a b h
    unfold f64Eq at h
    by_cases hna : f64IsNaN a = true
    · simp [hna] at h
    · by_cases hnb : f64IsNaN b = true
      · simp [hnb] at h
      · rw [Bool.not_eq_true] at hna hnb
        rw [hna, hnb] at h
        simp only [Bool.or_self, Bool.false_eq_true, if_false] at h
        by_cases hz : (f64IsZero a && f64IsZero b) = true
        · rw [Bool.and_eq_true] at hz
          unfold float64Hash
          rw [hna, hnb, hz.1, hz.2]
          simp
        · simp only [hz, if_false] at h
          have hab : a = b := by simpa using h
          rw [hab]

/-- Witness for C8 at concrete bit patterns: a quiet NaN, the negative zero,
the pattern of `3.14159...`, and the pair `+0.0`/`-0.0`, for both widths. -/
theorem c8_float_hash_cases_witness :
    float32Hash 0x7FC00000 = 0x7FFFFFFF ∧
    float32Hash 0x80000000 = 0 ∧
    float32Hash 0x40490FDB = uint32Hash 0x40490FDB ∧
    float32Hash 0 = float32Hash 0x80000000 ∧
    float64Hash 0x7FF8000000000000 = 0x7FFFFFFF ∧
    float64Hash 0x8000000000000000 = 0 ∧
    float64Hash 0x400921FB54442D18 = uint64Hash 0x400921FB54442D18 ∧
    float64Hash 0 = float64Hash 0x8000000000000000 :=
  ⟨c8_float_hash_cases.1 _ (by decide),
    c8_float_hash_cases.2.1 _ (by decide) (by decide),
    c8_float_hash_cases.2.2.1 _ (by decide) (by decide),
    c8_float_hash_cases.2.2.2.1 _ _ (by decide),
    c8_float_hash_cases.2.2.2.2.1 _ (by decide),
    c8_float_hash_cases.2.2.2.2.2.1 _ (by decide) (by decide),
    c8_float_hash_cases.2.2.2.2.2.2.1 _ (by decide) (by decide),
    c8_float_hash_cases.2.2.2.2.2.2.2 _ _ (by decide)⟩

/-- C6 falsified: at the requested shard count `2^31 + 1` the `uint32`
round-up overflows to zero, so the container is built with zero shards — not
the least power of two `≥ n` (which would be `2^32`) — and the mask wraps to
`2^32 - 1`. -/
theorem c6_counterexample :
    roundUpToPowerOf2 (2 ^ 31 + 1) = 0 ∧
    (createMap (fun n => n) (⟨2 ^ 31 + 1, none⟩ : Options Nat Nat)).shards.length = 0 ∧
    (createMap (fun n => n) (⟨2 ^ 31 + 1, none⟩ : Options Nat Nat)).mask = 2 ^ 32 - 1 :=
  ⟨by decide, by decide, by decide⟩

/-- C6 amended: for every requested shard count up to `2^31` the container is
constructed with a number of shards equal to the least power of two that is at
least the request (a request of zero being treated as one), and the mask
satisfies `mask + 1 = ` that power of two; requests above `2^31` overflow the
`uint32` computation to zero shards. -/
theorem c6_amended (hasher : K → Nat) (opts : Options K V)
    (h : opts.ShardCount ≤ 2 ^ 31) :
    ∃ j, (createMap hasher opts).shards.length = 2 ^ j ∧
      max opts.ShardCount 1 ≤ 2 ^ j ∧
      (∀ i, max opts.ShardCount 1 ≤ 2 ^ i → j ≤ i) ∧
      (createMap hasher opts).mask + 1 = 2 ^ j := by
  have h32 : (2 : Nat) ^ 32 = 4294967296 := by norm_num
  have h31 : (2 : Nat) ^ 31 = 2147483648 := by norm_num
  have hmod : opts.ShardCount % 2 ^ 32 = opts.ShardCount := Nat.mod_eq_of_lt (by omega)
  have hlen : (createMap hasher opts).shards.length = roundUpToPowerOf2 opts.ShardCount := by
    rw [createMap_shards, List.length_replicate, hmod]
  have hmask := createMap_mask_succ hasher opts h
  rcases Nat.eq_zero_or_pos opts.ShardCount with hn | hn
  · refine ⟨0, ?_, ?_, ?_, ?_⟩
    · rw [hlen, hn, roundUpToPowerOf2_zero]
      norm_num
    · simp [hn]
    · intro i _
      omega
    · rw [hmask, hn, roundUpToPowerOf2_zero]
      norm_num
  · refine ⟨(opts.ShardCount - 1).size, ?_, ?_, ?_, ?_⟩
    · rw [hlen, roundUpToPowerOf2_eq_pow_size hn h]
    · have hge := roundUpToPowerOf2_ge hn h
      rw [roundUpToPowerOf2_eq_pow_size hn h] at hge
      rw [Nat.max_eq_left hn]
      exact hge
    · intro i hi
      rw [Nat.max_eq_left hn] at hi
      exact Nat.size_le.mpr (by omega)
    · rw [hmask, roundUpToPowerOf2_eq_pow_size hn h]

/-- Witness for C6 amended at shard count 6: the container gets 8 shards, the
least power of two at least 6, with a matching mask. -/
theorem c6_amended_witness :
    ∃ j, (createMap (fun n => n) (⟨6, none⟩ : Options Nat Nat)).shards.length = 2 ^ j ∧
      max 6 1 ≤ 2 ^ j ∧
      (∀ i, max 6 1 ≤ 2 ^ i → j ≤ i) ∧
      (createMap (fun n => n) (⟨6, none⟩ : Options Nat Nat)).mask + 1 = 2 ^ j :=
  c6_amended (fun n => n) (⟨6, none⟩ : Options Nat Nat) (by norm_num)

/-- C9 falsified: with requested shard count `2^31 + 5` the rounded shard
count overflows to zero shards while the mask wraps, so the shard index
computed for key `0` is not a valid index into the shard slice (the Go slice
access would panic). -/
theorem c9_counterexample :
    (createMap (fun n => n) (⟨2 ^ 31 + 5, none⟩ : Options Nat Nat)).shards.length = 0 ∧
    ¬ ((createMap (fun n => n) (⟨2 ^ 31 + 5, none⟩ : Options Nat Nat)).getShardIdx 0 <
      (createMap (fun n => n) (⟨2 ^ 31 + 5, none⟩ : Options Nat Nat)).shards.length) :=
  ⟨by decide, by decide⟩

/-- C9 amended: for every requested shard count up to `2^31`, the constructed
container's shard list has exactly `mask + 1` entries and every key's shard
index `hash(k) &&& mask` is in bounds, so shard access cannot panic. -/
theorem c9_shard_index_in_bounds (hasher : K → Nat) (opts : Options K V)
    (h : opts.ShardCount ≤ 2 ^ 31) :
    (createMap hasher opts).shards.length = (createMap hasher opts).mask + 1 ∧
    ∀ k : K, (createMap hasher opts).getShardIdx k < (createMap hasher opts).shards.length := by
  have hWF := WF_createMap hasher opts h
  exact ⟨hWF.1, fun k => hWF.idx_lt k⟩

/-- Witness for C9 amended at shard count 5 and key 99. -/
theorem c9_shard_index_in_bounds_witness :
    (createMap (fun n => n) (⟨5, none⟩ : Options Nat Nat)).shards.length =
      (createMap (fun n => n) (⟨5, none⟩ : Options Nat Nat)).mask + 1 ∧
    (createMap (fun n => n) (⟨5, none⟩ : Options Nat Nat)).getShardIdx 99 <
      (createMap (fun n => n) (⟨5, none⟩ : Options Nat Nat)).shards.length := by
  have h := c9_shard_index_in_bounds (fun n => n) (⟨5, none⟩ : Options Nat Nat) (by norm_num)
  exact ⟨h.1, h.2 99⟩

/-- C5 falsified: with no codec configured and the relative path `"d/f"`,
`SaveToFile` creates the parent directory `"d"` (an I/O side effect) before
detecting the missing codec, so that configuration error is not reported
before all I/O. -/
theorem c5_counterexample :
    ((createMap (fun n => n) (⟨1, none⟩ : Options Nat Nat)).SaveToFile
        ⟨fun _ => none⟩ "d/f").events = [IOEvent.mkdirAll "d"] ∧
    ((createMap (fun n => n) (⟨1, none⟩ : Options Nat Nat)).SaveToFile
        ⟨fun _ => none⟩ "d/f").err = some "no serializer configured for marshaling" :=
  ⟨by decide, by decide⟩

/-- C5 amended: an empty path makes both `SaveToFile` and `LoadFromFile`
return an error with no I/O event and no state change; a missing codec makes
`LoadFromFile` return an error with no I/O and no state change, and makes
`SaveToFile` return an error with no file read, written or renamed and no
state change — though `SaveToFile` may first create the parent directory of a
relative path. -/
theorem c5_amended (m : Map K V) (fs : FS) (filename : String) :
    (filename = "" →
      m.SaveToFile fs filename = ⟨m, fs, [], some "filename cannot be empty"⟩ ∧
      m.LoadFromFile fs filename = ⟨m, [], some "filename cannot be empty"⟩) ∧
    (filename ≠ "" → m.serializer = none →
      ((m.SaveToFile fs filename).map = m ∧
        (m.SaveToFile fs filename).fs = fs ∧
        (m.SaveToFile fs filename).err = some "no serializer configured for marshaling" ∧
        ∀ e ∈ (m.SaveToFile fs filename).events,
          e.isWrite = false ∧ ∃ d, e = IOEvent.mkdirAll d) ∧
      m.LoadFromFile fs filename =
        ⟨m, [], some "no serializer configured for unmarshaling"⟩) := by
  constructor
  · intro hf
    refine ⟨SaveToFile_err_empty m fs filename hf, ?_⟩
    unfold Map.LoadFromFile
    rw [if_pos hf]
  · intro hf hs
    have hsave := SaveToFile_err_noser m fs filename hf hs
    refine ⟨⟨by rw [hsave], by rw [hsave], by rw [hsave], ?_⟩, ?_⟩
    · intro e he
      rw [hsave] at he
      refine ⟨isWrite_false_of_mem_mkdir he, ?_⟩
      by_cases hc : ¬ filepathIsAbs filename ∧
          filepathDir filename ≠ "." ∧ filepathDir filename ≠ ""
      · rw [if_pos hc] at he
        simp only [List.mem_singleton] at he
        exact ⟨filepathDir filename, he⟩
      · rw [if_neg hc] at he
        simp at he
    · unfold Map.LoadFromFile
      rw [if_neg hf, hs]

/-- Witness for C5 amended at a concrete container, both for the empty path
and for a missing codec with path `"d/f"`. -/
theorem c5_amended_witness :
    (createMap (fun n => n) (⟨1, none⟩ : Options Nat Nat)).SaveToFile ⟨fun _ => none⟩ "" =
      ⟨createMap (fun n => n) (⟨1, none⟩ : Options Nat Nat), ⟨fun _ => none⟩, [],
        some "filename cannot be empty"⟩ ∧
    ((createMap (fun n => n) (⟨1, none⟩ : Options Nat Nat)).SaveToFile
        ⟨fun _ => none⟩ "d/f").err = some "no serializer configured for marshaling" ∧
    (createMap (fun n => n) (⟨1, none⟩ : Options Nat Nat)).LoadFromFile ⟨fun _ => none⟩ "d/f" =
      ⟨createMap (fun n => n) (⟨1, none⟩ : Options Nat Nat), [],
        some "no serializer configured for unmarshaling"⟩ := by
  have h1 := (c5_amended (createMap (fun n => n) (⟨1, none⟩ : Options Nat Nat))
    ⟨fun _ => none⟩ "").1 rfl
  have h2 := (c5_amended (createMap (fun n => n) (⟨1, none⟩ : Options Nat Nat))
    ⟨fun _ => none⟩ "d/f").2 (by decide) rfl
  exact ⟨h1.1, h2.1.2.2.1, h2.2⟩

/-- C4 falsified: an empty container never satisfies the `size > 0` guard of
the skip check, so a second `SaveToFile` with no intervening mutation
marshals and writes the file all over again — the temp-file write and the
rename both happen a second time. -/
theorem c4_counterexample :
    ((createMap (fun n => n) (⟨1, some pairCodec⟩ : Options Nat Nat)).SaveToFile
        ⟨fun _ => none⟩ "f").err = none ∧
    (((createMap (fun n => n) (⟨1, some pairCodec⟩ : Options Nat Nat)).SaveToFile
          ⟨fun _ => none⟩ "f").map.SaveToFile
        ((createMap (fun n => n) (⟨1, some pairCodec⟩ : Options Nat Nat)).SaveToFile
          ⟨fun _ => none⟩ "f").fs "f").err = none ∧
    (((createMap (fun n => n) (⟨1, some pairCodec⟩ : Options Nat Nat)).SaveToFile
          ⟨fun _ => none⟩ "f").map.SaveToFile
        ((createMap (fun n => n) (⟨1, some pairCodec⟩ : Options Nat Nat)).SaveToFile
          ⟨fun _ => none⟩ "f").fs "f").events =
      [IOEvent.writeFile "f.tmp" [], IOEvent.rename "f.tmp" "f"] :=
  ⟨by decide, by decide, by decide⟩

/-- C4 amended: for a container with at least one entry, a successful
`SaveToFile` leaves the dirty flag clear, and an immediately repeated
`SaveToFile` with no intervening mutation is a no-op — it succeeds, changes
neither the container nor the file system, and performs no write or rename
event. -/
theorem c4_amended (m : Map K V) (fs : FS) (filename : String)
    (hsz : 0 < m.Size) (hok : (m.SaveToFile fs filename).err = none) :
    (m.SaveToFile fs filename).map.dirty = false ∧
    ((m.SaveToFile fs filename).map.SaveToFile (m.SaveToFile fs filename).fs
        filename).err = none ∧
    ((m.SaveToFile fs filename).map.SaveToFile (m.SaveToFile fs filename).fs
        filename).map = (m.SaveToFile fs filename).map ∧
    ((m.SaveToFile fs filename).map.SaveToFile (m.SaveToFile fs filename).fs
        filename).fs = (m.SaveToFile fs filename).fs ∧
    ∀ e ∈ ((m.SaveToFile fs filename).map.SaveToFile (m.SaveToFile fs filename).fs
        filename).events, e.isWrite = false := by
  by_cases hf : filename = ""
  · rw [SaveToFile_err_empty m fs filename hf] at hok
    simp at hok
  cases hs : m.serializer with
  | none =>
    rw [SaveToFile_err_noser m fs filename hf hs] at hok
    simp at hok
  | some s =>
    by_cases hd : m.dirty = false
    · have hr1 := SaveToFile_skip m fs filename s hf hs hsz hd
      rw [hr1]
      have hr2 := SaveToFile_skip m fs filename s hf hs hsz hd
      refine ⟨hd, ?_, ?_, ?_, ?_⟩
      · rw [hr2]
      · rw [hr2]
      · rw [hr2]
      · intro e he
        rw [hr2] at he
        exact isWrite_false_of_mem_mkdir he
    · have hnd : ¬ (0 < m.Size ∧ m.dirty = false) := fun hc => hd hc.2
      cases hm : m.MarshalWith s with
      | error e =>
        rw [SaveToFile_err_marshal m fs filename s e hf hs hnd hm] at hok
        simp at hok
      | ok data =>
        have hr1 := SaveToFile_write m fs filename s data hf hs hnd hm
        rw [hr1]
        have hs2 : ({ m with dirty := false } : Map K V).serializer = some s := hs
        have hsz2 : 0 < ({ m with dirty := false } : Map K V).Size := hsz
        have hd2 : ({ m with dirty := false } : Map K V).dirty = false := rfl
        have hr2 := SaveToFile_skip ({ m with dirty := false } : Map K V)
          (((fs.write (filename ++ ".tmp") data).write filename data).removeFile
            (filename ++ ".tmp")) filename s hf hs2 hsz2 hd2
        refine ⟨rfl, ?_, ?_, ?_, ?_⟩
        · rw [hr2]
        · rw [hr2]
        · rw [hr2]
        · intro e he
          rw [hr2] at he
          exact isWrite_false_of_mem_mkdir he

/-- Witness for C4 amended at a one-entry dirty container saved to `"f"`. -/
theorem c4_amended_witness :
    0 < (buildMap (fun n => n) (⟨1, some pairCodec⟩ : Options Nat Nat) [(3, 30)]).Size ∧
    ((buildMap (fun n => n) (⟨1, some pairCodec⟩ : Options Nat Nat) [(3, 30)]).SaveToFile
        ⟨fun _ => none⟩ "f").err = none ∧
    ((buildMap (fun n => n) (⟨1, some pairCodec⟩ : Options Nat Nat) [(3, 30)]).SaveToFile
        ⟨fun _ => none⟩ "f").map.dirty = false ∧
    (((buildMap (fun n => n) (⟨1, some pairCodec⟩ : Options Nat Nat) [(3, 30)]).SaveToFile
          ⟨fun _ => none⟩ "f").map.SaveToFile
        ((buildMap (fun n => n) (⟨1, some pairCodec⟩ : Options Nat Nat) [(3, 30)]).SaveToFile
          ⟨fun _ => none⟩ "f").fs "f").err = none ∧
    ∀ e ∈ (((buildMap (fun n => n) (⟨1, some pairCodec⟩ : Options Nat Nat) [(3, 30)]).SaveToFile
          ⟨fun _ => none⟩ "f").map.SaveToFile
        ((buildMap (fun n => n) (⟨1, some pairCodec⟩ : Options Nat Nat) [(3, 30)]).SaveToFile
          ⟨fun _ => none⟩ "f").fs "f").events, e.isWrite = false := by
  have h := c4_amended (buildMap (fun n => n) (⟨1, some pairCodec⟩ : Options Nat Nat) [(3, 30)])
    ⟨fun _ => none⟩ "f" (by decide) (by decide)
  exact ⟨by decide, by decide, h.1, h.2.1, h.2.2.2.2⟩

end Claims

section RoundTripLemmas

variable {K V : Type} [DecidableEq K]

lemma itemsList_keys (m : Map K V) :
    m.itemsList.map Tuple.key = m.shards.flatten.map Prod.fst := by
  unfold Map.itemsList
  rw [List.map_map]
  rfl

lemma itemsList_length (m : Map K V) : m.itemsList.length = m.Size := by
  unfold Map.itemsList
  rw [List.length_map, List.length_flatten]
  rfl

lemma itemsList_pairs (m : Map K V) :
    m.itemsList.map (fun t => (t.key, t.value)) = m.shards.flatten := by
  unfold Map.itemsList
  rw [List.map_map]
  exact List.map_id _

lemma decPairs_encPairs : ∀ l, decPairs (encPairs l) = Except.ok l := by
  intro l
  induction l with
  | nil => rfl
  | cons t ts ih =>
    show decPairs (t.key :: t.value :: encPairs ts) = _
    unfold decPairs
    rw [ih]
    rfl

lemma pairCodec_inverse (d : SerializableData Nat Nat) (bs2 : List Nat)
    (h : pairCodec.marshal d = Except.ok bs2) :
    pairCodec.unmarshal bs2 = Except.ok d := by
  have hb : encPairs d.items = bs2 := by
    have h2 : Except.ok (encPairs d.items) = (Except.ok bs2 : Except String (List Nat)) := h
    injection h2
  rw [← hb]
  show (decPairs (encPairs d.items)).map (fun l => (⟨l⟩ : SerializableData Nat Nat)) =
    Except.ok d
  rw [decPairs_encPairs]
  rfl

end RoundTripLemmas

section ClaimOne

variable {K V : Type} [DecidableEq K]

/-- C1: build a container by `Put`-inserting any finite list of pairs into a
fresh container, serialize it with `MarshalWith` under any codec whose
unmarshal inverts its marshal, and deserialize the bytes with `UnmarshalWith`
into a fresh container of the same type: the result reports no error, has the
same `Size`, and answers every `Get` (in particular for every originally
inserted key) exactly as the original container does. -/
theorem c1_roundtrip (hasher : K → Nat) (opts : Options K V)
    (pairs : List (K × V)) (s : SerializerFunc K V) (bs : List Nat)
    (hn : opts.ShardCount ≤ 2 ^ 31)
    (hcodec : ∀ d bs2, s.marshal d = Except.ok bs2 → s.unmarshal bs2 = Except.ok d)
    (hm : (buildMap hasher opts pairs).MarshalWith s = Except.ok bs) :
    ((createMap hasher opts).UnmarshalWith bs s).2 = none ∧
    ((createMap hasher opts).UnmarshalWith bs s).1.Size =
      (buildMap hasher opts pairs).Size ∧
    ∀ k : K, ((createMap hasher opts).UnmarshalWith bs s).1.Get k =
      (buildMap hasher opts pairs).Get k := by
  have hWFm : WellFormed (buildMap hasher opts pairs) := WF_buildMap hasher opts pairs hn
  have hWFf : WellFormed (createMap hasher opts) := WF_createMap hasher opts hn
  have hWFc : WellFormed (createMap hasher opts).Clear := WF_Clear _ hWFf
  have hunm : s.unmarshal bs = Except.ok ⟨(buildMap hasher opts pairs).itemsList⟩ :=
    hcodec ⟨(buildMap hasher opts pairs).itemsList⟩ bs hm
  have hnd : ((buildMap hasher opts pairs).itemsList.map Tuple.key).Nodup := by
    rw [itemsList_keys]
    exact nodup_keys_flatten _ hWFm
  have hr : (createMap hasher opts).UnmarshalWith bs s =
      ({ putAllTuples (createMap hasher opts).Clear
          (buildMap hasher opts pairs).itemsList with dirty := false }, none) := by
    unfold Map.UnmarshalWith
    rw [hunm]
    rfl
  refine ⟨by rw [hr], ?_, ?_⟩
  · rw [hr]
    show (putAllTuples (createMap hasher opts).Clear
      (buildMap hasher opts pairs).itemsList).Size = _
    rw [Size_putAllTuples _ hWFc _ (fun t _ => Get_Clear _ t.key) hnd,
      Size_Clear, itemsList_length]
    omega
  · intro k
    rw [hr]
    show (putAllTuples (createMap hasher opts).Clear
      (buildMap hasher opts pairs).itemsList).Get k = _
    rw [Get_putAllTuples _ hWFc _ k, tupLookupLast_eq_listGet _ _ hnd,
      itemsList_pairs, listGet_flatten_routed _ hWFm, Get_Clear]
    cases (buildMap hasher opts pairs).Get k <;> rfl

/-- Witness for C1: two pairs round-tripped through the concrete invertible
pair codec on a four-shard container. -/
theorem c1_roundtrip_witness :
    ((createMap (fun n => n) (⟨4, some pairCodec⟩ : Options Nat Nat)).UnmarshalWith
        [1, 10, 2, 20] pairCodec).2 = none ∧
    ((createMap (fun n => n) (⟨4, some pairCodec⟩ : Options Nat Nat)).UnmarshalWith
        [1, 10, 2, 20] pairCodec).1.Size =
      (buildMap (fun n => n) (⟨4, some pairCodec⟩ : Options Nat Nat) [(1, 10), (2, 20)]).Size ∧
    ∀ k : Nat, ((createMap (fun n => n) (⟨4, some pairCodec⟩ : Options Nat Nat)).UnmarshalWith
        [1, 10, 2, 20] pairCodec).1.Get k =
      (buildMap (fun n => n) (⟨4, some pairCodec⟩ : Options Nat Nat) [(1, 10), (2, 20)]).Get k :=
  c1_roundtrip (fun n => n) (⟨4, some pairCodec⟩ : Options Nat Nat) [(1, 10), (2, 20)]
    pairCodec [1, 10, 2, 20] (by norm_num)
    (fun d bs2 h => pairCodec_inverse d bs2 h) rfl

end ClaimOne
